import Mathlib

/-!
Verification of the striped-index partitioning core of `xk6-segment`
(`pkg/segment`).  The Go code is shallowly embedded: `int64` fields become
`Int`, the per-instance mutex is dropped (every navigation call is atomic,
so the sequential semantics below is exactly the per-call semantics), and
stateful methods become state-passing functions.  Go's truncated integer
division and remainder are `Int.tdiv` / `Int.tmod`.  Slice indexing
`s.offsets[e]` becomes `List.getD` at `e.toNat`; on inputs where Go would
panic with an out-of-range index (only reachable by violating the
documented preconditions) the embedding instead reads a default, and a
separate `Option`-valued variant (`goToChecked`) models the panics where a
claim is about their absence.
-/

set_option autoImplicit false

namespace Segment

/-- Embeds Go's `SegmentedIndex` struct: striping parameters
`start`, `lcd`, `offsets` and the cursor `scaled`, `unscaled`.
(The `sync.RWMutex` field is dropped; see the file comment.) -/
structure SegmentedIndex where
  start : Int
  lcd : Int
  offsets : List Int
  scaled : Int
  unscaled : Int
deriving DecidableEq, Repr

/-- Embeds Go's `SegmentedIndexResult` struct. -/
structure SegmentedIndexResult where
  scaled : Int
  unscaled : Int
deriving DecidableEq, Repr

/-- Embeds `NewSegmentedIndex(start, lcd, offsets)`; `scaled` and
`unscaled` are zero-initialized, as in Go. -/
def NewSegmentedIndex (start lcd : Int) (offsets : List Int) : SegmentedIndex :=
  { start := start, lcd := lcd, offsets := offsets, scaled := 0, unscaled := 0 }

/-- Embeds `(*SegmentedIndex).Next`: the state after the call together
with the returned `SegmentedIndexResult`. -/
def next (s : SegmentedIndex) : SegmentedIndex × SegmentedIndexResult :=
  let unscaled :=
    if s.scaled = 0 then
      s.unscaled + (s.start + 1)
    else
      s.unscaled + s.offsets.getD ((s.scaled - 1).tmod s.offsets.length).toNat 0
  let scaled := s.scaled + 1
  ({ s with scaled := scaled, unscaled := unscaled },
   { scaled := scaled, unscaled := unscaled })

/-- Embeds `(*SegmentedIndex).Prev`: the state after the call together
with the returned `SegmentedIndexResult`.  (Calling it with
`scaled == 0` is documented as undefined in the source.) -/
def prev (s : SegmentedIndex) : SegmentedIndex × SegmentedIndexResult :=
  let unscaled :=
    if s.scaled = 1 then
      s.unscaled - (s.start + 1)
    else
      s.unscaled - s.offsets.getD ((s.scaled - 2).tmod s.offsets.length).toNat 0
  let scaled := s.scaled - 1
  ({ s with scaled := scaled, unscaled := unscaled },
   { scaled := scaled, unscaled := unscaled })

/-- The `for ; i < value%s.lcd; gi, i = gi+1, i+s.offsets[gi]` loop of
`GoTo`, with an explicit fuel.  Arguments after the target: fuel, `gi`,
`i`, `scaled`, `unscaled`; returns the final `(gi, i, scaled, unscaled)`.
`goTo` runs it with fuel `offsets.length`: under the striping contract the
loop condition fails after at most `offsets.length` iterations, and past
that point Go's `s.offsets[gi]` would be out of range, so no run of the Go
loop completes more iterations than the fuel allows. -/
def goToLoop (offsets : List Int) (target : Int) :
    Nat → Nat → Int → Int → Int → Nat × Int × Int × Int
  | 0, gi, i, scaled, unscaled => (gi, i, scaled, unscaled)
  | fuel + 1, gi, i, scaled, unscaled =>
    if i < target then
      goToLoop offsets target fuel (gi + 1) (i + offsets.getD gi 0)
        (scaled + 1) (unscaled + offsets.getD gi 0)
    else
      (gi, i, scaled, unscaled)

/-- Embeds `(*SegmentedIndex).GoTo(value)`. -/
def goTo (s : SegmentedIndex) (value : Int) : SegmentedIndex × SegmentedIndexResult :=
  let n := s.offsets.length
  let wholeCycles := value.tdiv s.lcd
  let scaled0 := wholeCycles * (n : Int)
  let unscaled0 := wholeCycles * s.lcd + s.start + 1
  match goToLoop s.offsets (value.tmod s.lcd) n 0 s.start scaled0 unscaled0 with
  | (gi, _, scaled1, unscaled1) =>
    let unscaled2 :=
      if 0 < gi then
        unscaled1 - s.offsets.getD (gi - 1) 0
      else if 0 < scaled1 then
        unscaled1 - s.offsets.getD (n - 1) 0
      else
        unscaled1
    let unscaled3 := if scaled1 = 0 then 0 else unscaled2
    ({ s with scaled := scaled1, unscaled := unscaled3 },
     { scaled := scaled1, unscaled := unscaled3 })

/-- The `Option`-valued variant of the `GoTo` loop, modelling Go's runtime
faults: an out-of-range `offsets[gi]` access yields `none`, and exhausting
the fuel while the loop condition still holds (the loop would keep going)
also yields `none`. -/
def goToLoopChecked (offsets : List Int) (target : Int) :
    Nat → Nat → Int → Int → Int → Option (Nat × Int × Int × Int)
  | 0, gi, i, scaled, unscaled =>
    if i < target then none else some (gi, i, scaled, unscaled)
  | fuel + 1, gi, i, scaled, unscaled =>
    if i < target then
      match offsets[gi]? with
      | none => none
      | some o => goToLoopChecked offsets target fuel (gi + 1) (i + o) (scaled + 1) (unscaled + o)
    else
      some (gi, i, scaled, unscaled)

/-- The `Option`-valued variant of `GoTo`: `none` wherever the Go method
would fault at runtime (out-of-range slice index in the loop or in the
overshoot correction, or a loop that runs past every valid index). -/
def goToChecked (s : SegmentedIndex) (value : Int) :
    Option (SegmentedIndex × SegmentedIndexResult) :=
  let n := s.offsets.length
  let wholeCycles := value.tdiv s.lcd
  let scaled0 := wholeCycles * (n : Int)
  let unscaled0 := wholeCycles * s.lcd + s.start + 1
  match goToLoopChecked s.offsets (value.tmod s.lcd) n 0 s.start scaled0 unscaled0 with
  | none => none
  | some (gi, _, scaled1, unscaled1) =>
    let unscaled2? :=
      if 0 < gi then
        (s.offsets[gi - 1]?).map (unscaled1 - ·)
      else if 0 < scaled1 then
        (s.offsets[n - 1]?).map (unscaled1 - ·)
      else
        some unscaled1
    match unscaled2? with
    | none => none
    | some unscaled2 =>
      let unscaled3 := if scaled1 = 0 then 0 else unscaled2
      some ({ s with scaled := scaled1, unscaled := unscaled3 },
            { scaled := scaled1, unscaled := unscaled3 })

/-! ## The shared registry

`sharedSegmentedIndexes.get` and `XSharedSegmentedIndex`.  The execution
context (`lib.State` plus `lib.NewExecutionTuple` /
`GetStripedOffsets`, all external collaborators from the k6 library) is
abstracted as the striped triple it ultimately supplies.  The registry map
is a function `String → Option SegmentedIndex`; double-checked locking
collapses to a single lookup-or-insert because each call is atomic. -/

/-- The striping parameters the caller's execution context yields via
`lib.NewExecutionTuple(...).GetStripedOffsets()` (an external
collaborator of the core). -/
structure ExecState where
  stripedStart : Int
  stripedLcd : Int
  stripedOffsets : List Int

/-- Embeds the `sharedSegmentedIndexes` struct: the name-keyed map
(`data`), with its `sync.RWMutex` dropped. -/
structure SharedSegmentedIndexes where
  data : String → Option SegmentedIndex

/-- Embeds `(*sharedSegmentedIndexes).get(state, name)`: returns the
registry after the call and the returned instance.  On a hit the stored
instance is returned unchanged; on a miss a new `SegmentedIndex` is
constructed from the context's striped offsets and stored under `name`. -/
def sharedGet (reg : SharedSegmentedIndexes) (state : ExecState) (name : String) :
    SharedSegmentedIndexes × SegmentedIndex :=
  match reg.data name with
  | some array => (reg, array)
  | none =>
    let array := NewSegmentedIndex state.stripedStart state.stripedLcd state.stripedOffsets
    (⟨fun n => if n = name then some array else reg.data n⟩, array)

/-- The failure surfaced by `XSharedSegmentedIndex` on an empty name
(Go panics with `errors.New("empty name provided to SharedArray's constructor")`). -/
inductive SharedIndexError where
  | invalidArgument : SharedIndexError
deriving DecidableEq, Repr

/-- Embeds `(*Module).XSharedSegmentedIndex(ctx, name)`: the registry
after the call together with either the returned instance or the
invalid-argument failure.  The empty-name check precedes any registry or
context access, so a failing call leaves the registry untouched. -/
def xSharedSegmentedIndex (reg : SharedSegmentedIndexes) (state : ExecState)
    (name : String) :
    SharedSegmentedIndexes × Except SharedIndexError SegmentedIndex :=
  if name.length = 0 then
    (reg, .error .invalidArgument)
  else
    let res := sharedGet reg state name
    (res.1, .ok res.2)

/-- Folds a sequence of `sharedGet` calls (each with its own execution
context and name) over the registry. -/
def runGets (reg : SharedSegmentedIndexes) : List (ExecState × String) → SharedSegmentedIndexes
  | [] => reg
  | c :: cs => runGets (sharedGet reg c.1 c.2).1 cs

/-! ## Spec-side definitions

The striping position function and the naive linear-scan seek, written
from the spec's words (§3, §4.1, §8), to be compared with the embedded
code. -/

/-- The unscaled distance from the `k`-th to the `(k+1)`-th cursor
position of this partition: `start + 1` out of the initial state, then
the offsets cyclically (spec §4.1 Advance). -/
def stripeStep (start : Int) (offsets : List Int) : Nat → Int
  | 0 => start + 1
  | k + 1 => offsets.getD (k % offsets.length) 0

/-- The unscaled position of the `k`-th element assigned to this
partition, `0` for `k = 0` (spec §3 invariant):
`stripePos start offsets k = start + 1 + Σ_{j<k-1} offsets[j mod n]`
for `k ≥ 1`. -/
def stripePos (start : Int) (offsets : List Int) : Nat → Int
  | 0 => 0
  | k + 1 => stripePos start offsets k + stripeStep start offsets k

/-- Sum of the first `t` offsets (`getD` reads `0` past the end). -/
def sumTo (offsets : List Int) : Nat → Int
  | 0 => 0
  | t + 1 => sumTo offsets t + offsets.getD t 0

/-- Sum of `offsets[j mod n]` over `j < t`. -/
def sumMod (offsets : List Int) : Nat → Int
  | 0 => 0
  | t + 1 => sumMod offsets t + offsets.getD (t % offsets.length) 0

/-- The striping contract the upstream `GetStripedOffsets` guarantees
(spec §3): nonnegative `start`, positive cycle length, at least one
offset, all offsets positive, the offsets summing to one cycle, and every
in-cycle position of the partition lying inside the cycle. -/
def ValidStriping (start lcd : Int) (offsets : List Int) : Prop :=
  0 ≤ start ∧ 0 < lcd ∧ offsets ≠ [] ∧ (∀ o ∈ offsets, 0 < o) ∧
    offsets.sum = lcd ∧ ∀ t < offsets.length, start + sumTo offsets t < lcd

instance (start lcd : Int) (offsets : List Int) :
    Decidable (ValidStriping start lcd offsets) := by
  unfold ValidStriping; infer_instance

/-- Modelled from the spec (§8): repeatedly call Advance while the next
`unscaled` would still be ≤ `value`; with enough fuel this is the naive
linear scan SeekTo is claimed equivalent to. -/
def advanceLoop (value : Int) : Nat → SegmentedIndex → SegmentedIndex
  | 0, s => s
  | fuel + 1, s =>
    if (next s).2.unscaled ≤ value then advanceLoop value fuel (next s).1 else s

/-- Modelled from the spec (§8): the naive linear-scan seek from the
initial state.  Fuel `value.toNat + 1` suffices because each Advance moves
`unscaled` forward by at least one under the striping contract. -/
def naiveSeekTo (start lcd : Int) (offsets : List Int) (value : Int) : SegmentedIndex :=
  advanceLoop value (value.toNat + 1) (NewSegmentedIndex start lcd offsets)

/-- The state after `k` Advance calls from the initial state. -/
def nextIter (start lcd : Int) (offsets : List Int) : Nat → SegmentedIndex
  | 0 => NewSegmentedIndex start lcd offsets
  | k + 1 => (next (nextIter start lcd offsets k)).1

/-- States reachable from the initial state through Advance, Retreat
(under its precondition `scaled ≥ 1`) and SeekTo (with a nonnegative
target). -/
inductive Reachable (start lcd : Int) (offsets : List Int) : SegmentedIndex → Prop where
  | init : Reachable start lcd offsets (NewSegmentedIndex start lcd offsets)
  | next {s : SegmentedIndex} : Reachable start lcd offsets s →
      Reachable start lcd offsets (next s).1
  | prev {s : SegmentedIndex} : Reachable start lcd offsets s → 1 ≤ s.scaled →
      Reachable start lcd offsets (prev s).1
  | goTo {s : SegmentedIndex} (value : Int) : Reachable start lcd offsets s →
      0 ≤ value → Reachable start lcd offsets (goTo s value).1

/-! ## Arithmetic of the striping position function -/

theorem sumTo_eq_sum_take (o : List Int) : ∀ t : Nat, sumTo o t = (o.take t).sum := by
  intro t
  induction t with
  | zero => simp [sumTo]
  | succ t ih =>
    rw [sumTo, ih, List.take_succ, List.sum_append]
    cases h : o[t]? with
    | none => simp [List.getD, h]
    | some v => simp [List.getD, h]

theorem sumTo_length (o : List Int) : sumTo o o.length = o.sum := by
  rw [sumTo_eq_sum_take, List.take_length]

theorem sumMod_eq_sumTo (o : List Int) : ∀ t : Nat, t ≤ o.length → sumMod o t = sumTo o t := by
  intro t
  induction t with
  | zero => intro _; rfl
  | succ t ih =>
    intro ht
    rw [sumMod, sumTo, ih (Nat.le_of_succ_le ht),
      Nat.mod_eq_of_lt (Nat.lt_of_succ_le ht)]

theorem sumMod_add_length (o : List Int) (t : Nat) :
    sumMod o (t + o.length) = sumMod o t + o.sum := by
  induction t with
  | zero =>
    rw [Nat.zero_add, sumMod_eq_sumTo o o.length (Nat.le_refl _), sumTo_length, sumMod,
      Int.zero_add]
  | succ t ih =>
    have : t + 1 + o.length = (t + o.length) + 1 := by omega
    rw [this, sumMod, ih, Nat.add_mod_right, sumMod]
    ring

theorem sumMod_mul_add (o : List Int) (q t : Nat) :
    sumMod o (q * o.length + t) = q * o.sum + sumMod o t := by
  induction q with
  | zero => simp
  | succ q ih =>
    have : (q + 1) * o.length + t = (q * o.length + t) + o.length := by ring
    rw [this, sumMod_add_length, ih]
    push_cast
    ring

theorem stripePos_eq (a : Int) (o : List Int) (k : Nat) :
    stripePos a o (k + 1) = a + 1 + sumMod o k := by
  induction k with
  | zero => simp [stripePos, stripeStep, sumMod]
  | succ k ih =>
    rw [stripePos, ih, stripeStep, sumMod]
    ring

theorem stripeStep_pos (a : Int) (o : List Int) (ha : 0 ≤ a) (hne : o ≠ [])
    (hpos : ∀ x ∈ o, 0 < x) : ∀ k : Nat, 0 < stripeStep a o k := by
  intro k
  cases k with
  | zero => simpa [stripeStep] using Int.lt_add_one_of_le ha
  | succ k =>
    have hlen : 0 < o.length := List.length_pos.mpr hne
    have hk : k % o.length < o.length := Nat.mod_lt _ hlen
    rw [stripeStep, List.getD_eq_getElem o 0 hk]
    exact hpos _ (List.getElem_mem hk)

theorem stripePos_lt_succ (a : Int) (o : List Int) (ha : 0 ≤ a) (hne : o ≠ [])
    (hpos : ∀ x ∈ o, 0 < x) (k : Nat) : stripePos a o k < stripePos a o (k + 1) := by
  have := stripeStep_pos a o ha hne hpos k
  rw [stripePos]
  omega

theorem stripePos_strictMono (a : Int) (o : List Int) (ha : 0 ≤ a) (hne : o ≠ [])
    (hpos : ∀ x ∈ o, 0 < x) : StrictMono (stripePos a o) :=
  strictMono_nat_of_lt_succ (stripePos_lt_succ a o ha hne hpos)

theorem le_stripePos (a : Int) (o : List Int) (ha : 0 ≤ a) (hne : o ≠ [])
    (hpos : ∀ x ∈ o, 0 < x) : ∀ k : Nat, (k : Int) ≤ stripePos a o k := by
  intro k
  induction k with
  | zero => simp [stripePos]
  | succ k ih =>
    have := stripeStep_pos a o ha hne hpos k
    rw [stripePos]
    push_cast
    omega

/-! ## Single-step lemmas for `next` and `prev` -/

theorem tmod_natCast (j n : Nat) : (j : Int).tmod (n : Int) = ((j % n : Nat) : Int) :=
  (Int.ofNat_tmod j n).symm

theorem next_stripePos (a lc : Int) (o : List Int) (k : Nat) :
    next ⟨a, lc, o, (k : Int), stripePos a o k⟩ =
      (⟨a, lc, o, ((k + 1 : Nat) : Int), stripePos a o (k + 1)⟩,
       ⟨((k + 1 : Nat) : Int), stripePos a o (k + 1)⟩) := by
  cases k with
  | zero => simp [next, stripePos, stripeStep]
  | succ j =>
    have hsc : ((j + 1 : Nat) : Int) ≠ 0 := by positivity
    have harg : ((j + 1 : Nat) : Int) - 1 = (j : Int) := by push_cast; ring
    have hcast : ((j + 1 : Nat) : Int) + 1 = ((j + 1 + 1 : Nat) : Int) := by push_cast; ring
    have hpos : stripePos a o (j + 1) + o.getD (j % o.length) 0 = stripePos a o (j + 1 + 1) := by
      simp [stripePos, stripeStep]
    simp only [next, if_neg hsc, harg, tmod_natCast, Int.toNat_natCast, hcast, hpos]

theorem prev_stripePos (a lc : Int) (o : List Int) (k : Nat) :
    prev ⟨a, lc, o, ((k + 1 : Nat) : Int), stripePos a o (k + 1)⟩ =
      (⟨a, lc, o, (k : Int), stripePos a o k⟩, ⟨(k : Int), stripePos a o k⟩) := by
  cases k with
  | zero => simp [prev, stripePos, stripeStep]
  | succ j =>
    have hsc : ((j + 1 + 1 : Nat) : Int) ≠ 1 := by push_cast; omega
    have harg : ((j + 1 + 1 : Nat) : Int) - 2 = (j : Int) := by push_cast; ring
    have hstep : ((j + 1 + 1 : Nat) : Int) - 1 = ((j + 1 : Nat) : Int) := by push_cast; ring
    have hpos : stripePos a o (j + 1 + 1) - o.getD (j % o.length) 0 = stripePos a o (j + 1) := by
      simp [stripePos, stripeStep]
    simp only [prev, if_neg hsc, harg, tmod_natCast, Int.toNat_natCast, hstep, hpos]

/-- Advance then Retreat restores the state exactly (and Retreat returns
the restored cursor). -/
theorem prev_next (s : SegmentedIndex) :
    prev (next s).1 = (s, ⟨s.scaled, s.unscaled⟩) := by
  obtain ⟨a, lc, o, sc, un⟩ := s
  by_cases h : sc = 0
  · subst h; simp [next, prev]
  · have h1 : sc + 1 ≠ 1 := by omega
    have harg : sc + 1 - 2 = sc - 1 := by ring
    simp [next, prev, if_neg h, if_neg h1, harg]

/-- Retreat then Advance restores the state exactly (and Advance returns
the restored cursor). -/
theorem next_prev (s : SegmentedIndex) :
    next (prev s).1 = (s, ⟨s.scaled, s.unscaled⟩) := by
  obtain ⟨a, lc, o, sc, un⟩ := s
  by_cases h : sc = 1
  · subst h; simp [next, prev]
  · have h1 : sc - 1 ≠ 0 := by omega
    have harg : sc - 1 - 1 = sc - 2 := by ring
    simp [next, prev, if_neg h, if_neg h1, harg]

/-! ## The `GoTo` forward-walk loop -/

/-- Characterization of the forward-walk loop: started at cycle position
`t` with `i = a + sumTo o t` and fuel `o.length - t`, it stops at the
first `m` with `r ≤ a + sumTo o m`, having advanced `scaled`, `unscaled`
and `i` accordingly. -/
theorem goToLoop_spec (o : List Int) (r a : Int) (hterm : r ≤ a + sumTo o o.length) :
    ∀ (fuel t : Nat) (sc un : Int), t + fuel = o.length →
    (∀ u, u < t → a + sumTo o u < r) →
    ∃ m : Nat, t ≤ m ∧ m ≤ o.length ∧
      goToLoop o r fuel t (a + sumTo o t) sc un
        = (m, a + sumTo o m, sc + ((m - t : Nat) : Int), un + (sumTo o m - sumTo o t)) ∧
      (∀ u, u < m → a + sumTo o u < r) ∧ r ≤ a + sumTo o m := by
  intro fuel
  induction fuel with
  | zero =>
    intro t sc un hlen hbefore
    refine ⟨t, Nat.le_refl t, by omega, ?_, hbefore, ?_⟩
    · simp [goToLoop]
    · have : t = o.length := by omega
      rw [this]; exact hterm
  | succ fuel ih =>
    intro t sc un hlen hbefore
    by_cases hcond : a + sumTo o t < r
    · have harg : a + sumTo o t + o.getD t 0 = a + sumTo o (t + 1) := by
        rw [sumTo]; ring
      have hbefore' : ∀ u, u < t + 1 → a + sumTo o u < r := by
        intro u hu
        rcases Nat.lt_succ_iff_lt_or_eq.mp hu with h | h
        · exact hbefore u h
        · rw [h]; exact hcond
      obtain ⟨m, hm1, hm2, heq, hball, hstop⟩ :=
        ih (t + 1) (sc + 1) (un + o.getD t 0) (by omega) hbefore'
      refine ⟨m, by omega, hm2, ?_, hball, hstop⟩
      rw [goToLoop, if_pos hcond, harg, heq]
      have hsum : sumTo o (t + 1) = sumTo o t + o.getD t 0 := rfl
      simp only [Prod.mk.injEq]
      refine ⟨trivial, trivial, by omega, by rw [hsum]; ring⟩
    · refine ⟨t, Nat.le_refl t, by omega, ?_, hbefore, not_lt.mp hcond⟩
      rw [goToLoop, if_neg hcond]
      simp

/-! ## The `GoTo` result -/

/-- Unfolding `goTo` once the loop's result tuple is known. -/
theorem goTo_unfold (s : SegmentedIndex) (value : Int) (gi : Nat)
    (i scaled1 unscaled1 : Int)
    (hloop : goToLoop s.offsets (value.tmod s.lcd) s.offsets.length 0 s.start
        (value.tdiv s.lcd * (s.offsets.length : Int)) (value.tdiv s.lcd * s.lcd + s.start + 1)
      = (gi, i, scaled1, unscaled1)) :
    goTo s value =
      (⟨s.start, s.lcd, s.offsets, scaled1,
          if scaled1 = 0 then 0
          else
            if 0 < gi then unscaled1 - s.offsets.getD (gi - 1) 0
            else if 0 < scaled1 then unscaled1 - s.offsets.getD (s.offsets.length - 1) 0
            else unscaled1⟩,
       ⟨scaled1,
          if scaled1 = 0 then 0
          else
            if 0 < gi then unscaled1 - s.offsets.getD (gi - 1) 0
            else if 0 < scaled1 then unscaled1 - s.offsets.getD (s.offsets.length - 1) 0
            else unscaled1⟩) := by
  simp only [goTo]
  rw [hloop]

/-- `stripeStep` at a positive index, as a cyclic offsets read. -/
theorem stripeStep_succ (a : Int) (o : List Int) (k : Nat) :
    stripeStep a o (k + 1) = o.getD (k % o.length) 0 := rfl

/-- The cyclic offsets read at an in-cycle position `j` past `q` whole
cycles. -/
theorem stripeStep_mul_add (a : Int) (o : List Int) (q j : Nat) (hj : j < o.length) :
    stripeStep a o (q * o.length + j + 1) = o.getD j 0 := by
  rw [stripeStep_succ, Nat.add_comm (q * o.length) j, Nat.add_mul_mod_self_right,
    Nat.mod_eq_of_lt hj]

/-- Under the striping contract and for a nonnegative target, `GoTo`
lands exactly on the cursor `(K, stripePos K)` whose position is the last
one not exceeding the target, regardless of the cursor it starts from. -/
theorem goTo_result (a lc : Int) (o : List Int) (h : ValidStriping a lc o)
    (sc un value : Int) (hv : 0 ≤ value) :
    ∃ K : Nat,
      goTo ⟨a, lc, o, sc, un⟩ value =
        (⟨a, lc, o, (K : Int), stripePos a o K⟩, ⟨(K : Int), stripePos a o K⟩) ∧
      stripePos a o K ≤ value ∧ value < stripePos a o (K + 1) := by
  obtain ⟨ha, hlcd, hne, hpos, hsum, hcycle⟩ := h
  have hn : 0 < o.length := List.length_pos.mpr hne
  have hq0 : 0 ≤ value.tdiv lc := Int.tdiv_nonneg hv (Int.le_of_lt hlcd)
  have hqn : ((value.tdiv lc).toNat : Int) = value.tdiv lc := Int.toNat_of_nonneg hq0
  have hr0 : 0 ≤ value.tmod lc := Int.tmod_nonneg lc hv
  have hrlt : value.tmod lc < lc := Int.tmod_lt_of_pos value hlcd
  have hvqr : value.tmod lc + lc * value.tdiv lc = value := Int.tmod_add_tdiv value lc
  have hlen : sumTo o o.length = lc := by rw [sumTo_length, hsum]
  have hterm : value.tmod lc ≤ a + sumTo o o.length := by rw [hlen]; omega
  obtain ⟨m, -, hm2, heq, hball, hstop⟩ :=
    goToLoop_spec o (value.tmod lc) a hterm o.length 0
      (value.tdiv lc * (o.length : Int)) (value.tdiv lc * lc + a + 1)
      (Nat.zero_add o.length) (fun u hu => absurd hu (Nat.not_lt_zero u))
  have heq' : goToLoop o (value.tmod lc) o.length 0 a
      (value.tdiv lc * (o.length : Int)) (value.tdiv lc * lc + a + 1)
      = (m, a + sumTo o m, value.tdiv lc * (o.length : Int) + (m : Int),
         value.tdiv lc * lc + a + 1 + sumTo o m) := by
    have h0 : sumTo o 0 = 0 := rfl
    rw [h0, Int.add_zero] at heq
    rw [heq]
    simp
  have hrw := goTo_unfold ⟨a, lc, o, sc, un⟩ value m (a + sumTo o m)
    (value.tdiv lc * (o.length : Int) + (m : Int))
    (value.tdiv lc * lc + a + 1 + sumTo o m) heq'
  refine ⟨(value.tdiv lc).toNat * o.length + m, ?_⟩
  have hKcast : (((value.tdiv lc).toNat * o.length + m : Nat) : Int)
      = value.tdiv lc * (o.length : Int) + (m : Int) := by push_cast [hqn]; ring
  have hKpos1 : stripePos a o ((value.tdiv lc).toNat * o.length + m + 1)
      = value.tdiv lc * lc + a + 1 + sumTo o m := by
    rw [stripePos_eq, sumMod_mul_add, hsum, sumMod_eq_sumTo o m hm2, hqn]
    ring
  have hupper : value < stripePos a o ((value.tdiv lc).toNat * o.length + m + 1) := by
    rw [hKpos1]
    have hR : value.tmod lc ≤ a + sumTo o m := hstop
    linarith
  rw [hrw]
  by_cases hm0 : m = 0
  · subst hm0
    by_cases hq1 : (value.tdiv lc).toNat = 0
    · -- no whole cycles and no loop steps: the reset branch fires
      have hq1' : value.tdiv lc = 0 := by rw [← hqn, hq1]; rfl
      have hsc0 : value.tdiv lc * (o.length : Int) + ((0 : Nat) : Int) = 0 := by
        rw [hq1']; ring
      refine ⟨?_, ?_, hupper⟩
      · rw [hsc0, if_pos rfl]
        simp [hq1, stripePos]
      · simp [hq1, stripePos, hv]
    · -- whole cycles only: the `offsets[len(offsets)-1]` correction fires
      have hKval : (((value.tdiv lc).toNat * o.length + 0 : Nat) : Int)
          = value.tdiv lc * (o.length : Int) + ((0 : Nat) : Int) := hKcast
      have hKpos : 1 ≤ (value.tdiv lc).toNat * o.length :=
        Nat.one_le_iff_ne_zero.mpr (Nat.mul_ne_zero hq1 (by omega))
      have hscpos : 0 < value.tdiv lc * (o.length : Int) + ((0 : Nat) : Int) := by
        rw [← hKval]
        exact_mod_cast Nat.lt_of_lt_of_le Nat.zero_lt_one
          (hKpos.trans (Nat.le_add_right _ 0))
      obtain ⟨q1, hq⟩ : ∃ q1, (value.tdiv lc).toNat = q1 + 1 :=
        Nat.exists_eq_succ_of_ne_zero hq1
      obtain ⟨L1, hL⟩ : ∃ L1, o.length = L1 + 1 :=
        Nat.exists_eq_succ_of_ne_zero (by omega)
      have hstep : stripePos a o ((value.tdiv lc).toNat * o.length + 0 + 1)
          = stripePos a o ((value.tdiv lc).toNat * o.length + 0) + o.getD (o.length - 1) 0 := by
      -- rewrite `q_n · n` as `q1 · n + (n-1) + 1` and peel one `stripeStep`
        have e1 : (value.tdiv lc).toNat * o.length + 0 = q1 * o.length + L1 + 1 := by
          rw [hq, Nat.succ_mul]
          generalize q1 * o.length = Q
          omega
        rw [e1]
        conv_lhs => rw [stripePos]
        rw [stripeStep_mul_add a o q1 L1 (by omega)]
        have e2 : o.length - 1 = L1 := by omega
        rw [e2]
      have hgetD : o.getD (o.length - 1) 0 = lc - sumTo o (o.length - 1) := by
        have hsucc : sumTo o ((o.length - 1) + 1) = sumTo o (o.length - 1) + o.getD (o.length - 1) 0 := rfl
        have hlen1 : (o.length - 1) + 1 = o.length := by omega
        rw [hlen1] at hsucc
        rw [← hlen, hsucc]
        ring
      refine ⟨?_, ?_, hupper⟩
      · rw [if_neg (by omega), if_neg (by omega), if_pos hscpos]
        have hfix : value.tdiv lc * lc + a + 1 + sumTo o 0 - o.getD (o.length - 1) 0
            = stripePos a o ((value.tdiv lc).toNat * o.length + 0) := by
          have := hKpos1
          rw [hstep] at this
          have h0 : sumTo o 0 = 0 := rfl
          linarith
        rw [hfix, hKval]
      · have hcy : a + sumTo o (o.length - 1) < lc := hcycle (o.length - 1) (by omega)
        have hKle : stripePos a o ((value.tdiv lc).toNat * o.length + 0)
            ≤ value.tdiv lc * lc := by
          have h1 := hKpos1
          rw [hstep] at h1
          rw [hgetD] at h1
          have h0 : sumTo o 0 = 0 := rfl
          linarith
        have hvge : value.tdiv lc * lc ≤ value := by linarith
        linarith
  · -- at least one loop step: the `offsets[gi-1]` correction fires
    have hm1 : 1 ≤ m := by omega
    have hKpos : 1 ≤ (value.tdiv lc).toNat * o.length + m := by omega
    have hscpos : 0 < value.tdiv lc * (o.length : Int) + (m : Int) := by
      rw [← hKcast]
      exact_mod_cast hKpos
    obtain ⟨j, hjm⟩ : ∃ j, m = j + 1 := Nat.exists_eq_succ_of_ne_zero hm0
    have hstep : stripePos a o ((value.tdiv lc).toNat * o.length + m + 1)
        = stripePos a o ((value.tdiv lc).toNat * o.length + m) + o.getD (m - 1) 0 := by
      rw [hjm]
      have e1 : (value.tdiv lc).toNat * o.length + (j + 1)
          = (value.tdiv lc).toNat * o.length + j + 1 := rfl
      rw [e1]
      conv_lhs => rw [stripePos]
      rw [stripeStep_mul_add a o _ j (by omega)]
      have e2 : j + 1 - 1 = j := rfl
      rw [e2]
    have hsummsucc : sumTo o m = sumTo o (m - 1) + o.getD (m - 1) 0 := by
      obtain ⟨j, hj⟩ : ∃ j, m = j + 1 := ⟨m - 1, by omega⟩
      subst hj
      rfl
    refine ⟨?_, ?_, hupper⟩
    · rw [if_neg (by omega), if_pos (by omega)]
      have hfix : value.tdiv lc * lc + a + 1 + sumTo o m - o.getD (m - 1) 0
          = stripePos a o ((value.tdiv lc).toNat * o.length + m) := by
        have h1 := hKpos1
        rw [hstep] at h1
        linarith
      rw [hfix, hKcast]
    · have hball1 : a + sumTo o (m - 1) < value.tmod lc := hball (m - 1) (by omega)
      have h1 := hKpos1
      rw [hstep] at h1
      have : stripePos a o ((value.tdiv lc).toNat * o.length + m)
          = value.tdiv lc * lc + a + 1 + sumTo o (m - 1) := by
        rw [hsummsucc] at h1
        linarith
      linarith

/-! ## Frame and congruence facts for the navigation operations -/

/-- The loop returns immediately when the condition fails, whatever the
fuel. -/
theorem goToLoop_stop (o : List Int) (target : Int) (fuel gi : Nat) (i sc un : Int)
    (hc : ¬ i < target) : goToLoop o target fuel gi i sc un = (gi, i, sc, un) := by
  cases fuel with
  | zero => rfl
  | succ fuel => rw [goToLoop, if_neg hc]

/-- `GoTo` leaves the striping parameters untouched. -/
theorem goTo_frame (s : SegmentedIndex) (v : Int) :
    (goTo s v).1.start = s.start ∧ (goTo s v).1.lcd = s.lcd ∧
      (goTo s v).1.offsets = s.offsets := by
  rcases hloop : goToLoop s.offsets (v.tmod s.lcd) s.offsets.length 0 s.start
      (v.tdiv s.lcd * (s.offsets.length : Int)) (v.tdiv s.lcd * s.lcd + s.start + 1)
    with ⟨gi, i, s1, u1⟩
  rw [goTo_unfold s v gi i s1 u1 hloop]
  exact ⟨rfl, rfl, rfl⟩

/-- `GoTo` reads only the striping parameters, never the cursor. -/
theorem goTo_congr (r s : SegmentedIndex) (v : Int) (h1 : r.start = s.start)
    (h2 : r.lcd = s.lcd) (h3 : r.offsets = s.offsets) : goTo r v = goTo s v := by
  obtain ⟨a1, l1, o1, sc1, u1⟩ := r
  obtain ⟨a2, l2, o2, sc2, u2⟩ := s
  simp only at h1 h2 h3
  subst h1; subst h2; subst h3
  rfl

/-- Reachable states carry the construction parameters unchanged. -/
theorem reachable_params (st lc : Int) (o : List Int) (s : SegmentedIndex)
    (h : Reachable st lc o s) : s.start = st ∧ s.lcd = lc ∧ s.offsets = o := by
  induction h with
  | init => exact ⟨rfl, rfl, rfl⟩
  | next _ ih => exact ih
  | prev _ _ ih => exact ih
  | @goTo s' v _ _ ih =>
    obtain ⟨f1, f2, f3⟩ := goTo_frame s' v
    rw [f1, f2, f3]
    exact ih

/-- The cursor invariant: every reachable state of a validly striped
index sits exactly at `(k, stripePos k)` for some `k : Nat`. -/
theorem reachable_inv (st lc : Int) (o : List Int) (h : ValidStriping st lc o)
    (s : SegmentedIndex) (hr : Reachable st lc o s) :
    0 ≤ s.scaled ∧ s.unscaled = stripePos st o s.scaled.toNat := by
  induction hr with
  | init => exact ⟨le_refl 0, rfl⟩
  | @next s' hr ih =>
    obtain ⟨p1, p2, p3⟩ := reachable_params st lc o s' hr
    obtain ⟨h1, h2⟩ := ih
    have hs : s' = ⟨st, lc, o, (s'.scaled.toNat : Int), stripePos st o s'.scaled.toNat⟩ := by
      obtain ⟨a1, l1, o1, sc1, u1⟩ := s'
      simp only at p1 p2 p3 h1 h2 ⊢
      rw [p1, p2, p3, h2, Int.toNat_of_nonneg h1]
    rw [hs, next_stripePos]
    refine ⟨by positivity, ?_⟩
    rw [Int.toNat_natCast]
  | @prev s' hr hsc ih =>
    obtain ⟨p1, p2, p3⟩ := reachable_params st lc o s' hr
    obtain ⟨h1, h2⟩ := ih
    obtain ⟨k, hk⟩ : ∃ k, s'.scaled.toNat = k + 1 :=
      Nat.exists_eq_succ_of_ne_zero (by omega)
    have hs : s' = ⟨st, lc, o, ((k + 1 : Nat) : Int), stripePos st o (k + 1)⟩ := by
      obtain ⟨a1, l1, o1, sc1, u1⟩ := s'
      simp only at p1 p2 p3 h1 h2 hk ⊢
      rw [p1, p2, p3, h2, hk, ← hk, Int.toNat_of_nonneg h1]
    rw [hs, prev_stripePos]
    refine ⟨Int.natCast_nonneg k, ?_⟩
    rw [Int.toNat_natCast]
  | @goTo s' v hr hv ih =>
    obtain ⟨p1, p2, p3⟩ := reachable_params st lc o s' hr
    obtain ⟨a1, l1, o1, sc1, u1⟩ := s'
    simp only at p1 p2 p3
    have hst : (⟨a1, l1, o1, sc1, u1⟩ : SegmentedIndex) = ⟨st, lc, o, sc1, u1⟩ := by
      rw [p1, p2, p3]
    rw [hst]
    obtain ⟨K, hK, -, -⟩ := goTo_result st lc o h sc1 u1 v hv
    rw [hK]
    refine ⟨Int.natCast_nonneg K, ?_⟩
    rw [Int.toNat_natCast]

/-! ## The naive linear scan -/

/-- From any on-stripe cursor not past the target, the look-ahead Advance
loop stops exactly at the last position not exceeding the target. -/
theorem advanceLoop_eq (a lc : Int) (o : List Int) (ha : 0 ≤ a) (hne : o ≠ [])
    (hpos : ∀ x ∈ o, 0 < x) (value : Int) (K : Nat)
    (hK1 : stripePos a o K ≤ value) (hK2 : value < stripePos a o (K + 1)) :
    ∀ (d fuel k : Nat), k + d = K → d ≤ fuel →
      advanceLoop value fuel ⟨a, lc, o, (k : Int), stripePos a o k⟩
        = ⟨a, lc, o, (K : Int), stripePos a o K⟩ := by
  intro d
  induction d with
  | zero =>
    intro fuel k hk hf
    have hkK : k = K := by omega
    subst hkK
    cases fuel with
    | zero => rfl
    | succ f =>
      rw [advanceLoop, next_stripePos]
      simp only
      rw [if_neg (not_le.mpr hK2)]
  | succ d ih =>
    intro fuel k hk hf
    cases fuel with
    | zero => omega
    | succ f =>
      rw [advanceLoop, next_stripePos]
      simp only
      have hle : stripePos a o (k + 1) ≤ value :=
        le_trans ((stripePos_strictMono a o ha hne hpos).monotone (by omega)) hK1
      rw [if_pos hle]
      exact ih f (k + 1) (by omega) (by omega)

/-- The naive seek stops exactly at the last on-stripe position not
exceeding the target. -/
theorem naiveSeekTo_eq (a lc : Int) (o : List Int) (ha : 0 ≤ a) (hne : o ≠ [])
    (hpos : ∀ x ∈ o, 0 < x) (value : Int) (hv : 0 ≤ value) (K : Nat)
    (hK1 : stripePos a o K ≤ value) (hK2 : value < stripePos a o (K + 1)) :
    naiveSeekTo a lc o value = ⟨a, lc, o, (K : Int), stripePos a o K⟩ := by
  have hKv : (K : Int) ≤ value := (le_stripePos a o ha hne hpos K).trans hK1
  have hfuel : K ≤ value.toNat + 1 := by omega
  have h0 : (NewSegmentedIndex a lc o)
      = ⟨a, lc, o, ((0 : Nat) : Int), stripePos a o 0⟩ := rfl
  rw [naiveSeekTo, h0]
  exact advanceLoop_eq a lc o ha hne hpos value K hK1 hK2 K (value.toNat + 1) 0
    (Nat.zero_add K) hfuel

/-! ## Absence of runtime faults in `GoTo` -/

/-- As long as the walk stays below `offsets.length` steps, the checked
loop performs exactly the unchecked loop's computation. -/
theorem goToLoopChecked_eq (o : List Int) (r a : Int) (hterm : r ≤ a + sumTo o o.length) :
    ∀ (fuel t : Nat) (sc un : Int), t + fuel = o.length →
      goToLoopChecked o r fuel t (a + sumTo o t) sc un
        = some (goToLoop o r fuel t (a + sumTo o t) sc un) := by
  intro fuel
  induction fuel with
  | zero =>
    intro t sc un hlen
    have ht : t = o.length := by omega
    have hc : ¬ (a + sumTo o t < r) := by rw [ht]; omega
    rw [goToLoopChecked, if_neg hc, goToLoop]
  | succ fuel ih =>
    intro t sc un hlen
    have ht : t < o.length := by omega
    by_cases hc : a + sumTo o t < r
    · have hget : o[t]? = some (o.getD t 0) := by
        rw [List.getElem?_eq_getElem ht, List.getD_eq_getElem o 0 ht]
      rw [goToLoopChecked, if_pos hc, hget]
      show goToLoopChecked o r fuel (t + 1) (a + sumTo o t + o.getD t 0) (sc + 1)
          (un + o.getD t 0) = some (goToLoop o r (fuel + 1) t (a + sumTo o t) sc un)
      rw [goToLoop, if_pos hc]
      have harg : a + sumTo o t + o.getD t 0 = a + sumTo o (t + 1) := by
        rw [sumTo]; ring
      rw [harg]
      exact ih (t + 1) (sc + 1) (un + o.getD t 0) (by omega)
    · rw [goToLoopChecked, if_neg hc, goToLoop_stop o r _ _ _ _ _ hc]

/-- Under the claimed preconditions the checked `GoTo` (which faults on
any out-of-range offsets access or on a walk longer than
`offsets.length`) runs to completion and agrees with `goTo`, and its walk
stops after at most `offsets.length` iterations. -/
theorem goToChecked_eq (a lc : Int) (o : List Int) (ha : 0 ≤ a) (hlcd : 0 < lc)
    (_hpos : ∀ x ∈ o, 0 < x) (hsum : o.sum = lc) (sc un value : Int) (hv : 0 ≤ value) :
    goToChecked ⟨a, lc, o, sc, un⟩ value = some (goTo ⟨a, lc, o, sc, un⟩ value) ∧
    ∃ gi : Nat, gi ≤ o.length ∧ ∃ i s1 u1,
      goToLoopChecked o (value.tmod lc) o.length 0 a
        (value.tdiv lc * (o.length : Int)) (value.tdiv lc * lc + a + 1)
        = some (gi, i, s1, u1) := by
  have hne : o ≠ [] := by
    intro hO
    rw [hO] at hsum
    simp only [List.sum_nil] at hsum
    omega
  have hn : 0 < o.length := List.length_pos.mpr hne
  have hr0 : 0 ≤ value.tmod lc := Int.tmod_nonneg lc hv
  have hrlt : value.tmod lc < lc := Int.tmod_lt_of_pos value hlcd
  have hlen : sumTo o o.length = lc := by rw [sumTo_length, hsum]
  have hterm : value.tmod lc ≤ a + sumTo o o.length := by rw [hlen]; omega
  obtain ⟨m, -, hm2, heq, -, -⟩ :=
    goToLoop_spec o (value.tmod lc) a hterm o.length 0
      (value.tdiv lc * (o.length : Int)) (value.tdiv lc * lc + a + 1)
      (Nat.zero_add o.length) (fun u hu => absurd hu (Nat.not_lt_zero u))
  have heq' : goToLoop o (value.tmod lc) o.length 0 a
      (value.tdiv lc * (o.length : Int)) (value.tdiv lc * lc + a + 1)
      = (m, a + sumTo o m, value.tdiv lc * (o.length : Int) + (m : Int),
         value.tdiv lc * lc + a + 1 + sumTo o m) := by
    have h0 : sumTo o 0 = 0 := rfl
    rw [h0, Int.add_zero] at heq
    rw [heq]
    simp
  have hchecked : goToLoopChecked o (value.tmod lc) o.length 0 a
      (value.tdiv lc * (o.length : Int)) (value.tdiv lc * lc + a + 1)
      = some (m, a + sumTo o m, value.tdiv lc * (o.length : Int) + (m : Int),
         value.tdiv lc * lc + a + 1 + sumTo o m) := by
    have h1 := goToLoopChecked_eq o (value.tmod lc) a hterm o.length 0
      (value.tdiv lc * (o.length : Int)) (value.tdiv lc * lc + a + 1)
      (Nat.zero_add o.length)
    have h0 : sumTo o 0 = 0 := rfl
    rw [h0, Int.add_zero] at h1
    rw [h1, heq']
  refine ⟨?_, m, hm2, _, _, _, hchecked⟩
  rw [goTo_unfold ⟨a, lc, o, sc, un⟩ value m (a + sumTo o m)
    (value.tdiv lc * (o.length : Int) + (m : Int))
    (value.tdiv lc * lc + a + 1 + sumTo o m) heq']
  simp only [goToChecked]
  rw [hchecked]
  dsimp only
  by_cases hm0 : 0 < m
  · have hm1 : m - 1 < o.length := by omega
    have hget : o[m - 1]? = some (o.getD (m - 1) 0) := by
      rw [List.getElem?_eq_getElem hm1, List.getD_eq_getElem o 0 hm1]
    rw [if_pos hm0, hget]
    simp only [Option.map_some']
    rw [if_pos hm0]
  · rw [if_neg hm0]
    by_cases hs1 : 0 < value.tdiv lc * (o.length : Int) + (m : Int)
    · have hl1 : o.length - 1 < o.length := by omega
      have hget : o[o.length - 1]? = some (o.getD (o.length - 1) 0) := by
        rw [List.getElem?_eq_getElem hl1, List.getD_eq_getElem o 0 hl1]
      rw [if_pos hs1, hget]
      simp only [Option.map_some']
      rw [if_neg hm0, if_pos hs1]
    · rw [if_neg hs1]
      dsimp only
      rw [if_neg hm0, if_neg hs1]

/-! ## Registry lemmas -/

/-- After any `sharedGet`, the instance it returned is the one stored
under the requested name. -/
theorem sharedGet_stores (reg : SharedSegmentedIndexes) (state : ExecState) (name : String) :
    (sharedGet reg state name).1.data name = some (sharedGet reg state name).2 := by
  unfold sharedGet
  cases h : reg.data name with
  | some array => exact h
  | none => simp

/-- A `sharedGet` on a name that is already present returns the stored
instance and leaves the registry untouched. -/
theorem sharedGet_hit (reg : SharedSegmentedIndexes) (state : ExecState) (name : String)
    (array : SegmentedIndex) (h : reg.data name = some array) :
    sharedGet reg state name = (reg, array) := by
  unfold sharedGet
  rw [h]

/-- No `sharedGet` ever removes or replaces a stored instance. -/
theorem sharedGet_preserves (reg : SharedSegmentedIndexes) (state : ExecState)
    (name other : String) (array : SegmentedIndex) (h : reg.data name = some array) :
    (sharedGet reg state other).1.data name = some array := by
  unfold sharedGet
  cases ho : reg.data other with
  | some a2 => exact h
  | none =>
    simp only
    by_cases he : name = other
    · rw [he] at h
      rw [h] at ho
      exact absurd ho (by simp)
    · simp [he, h]

/-- No sequence of `sharedGet` calls ever removes or replaces a stored
instance. -/
theorem runGets_preserves (name : String) (array : SegmentedIndex) :
    ∀ (calls : List (ExecState × String)) (reg : SharedSegmentedIndexes),
      reg.data name = some array → (runGets reg calls).data name = some array := by
  intro calls
  induction calls with
  | nil => intro reg h; exact h
  | cons c cs ih =>
    intro reg h
    exact ih _ (sharedGet_preserves reg c.1 name c.2 array h)

/-! ## Further helper lemmas for the claims -/

/-- The state after `k` Advance calls from the initial state. -/
theorem nextIter_eq (a lc : Int) (o : List Int) :
    ∀ k : Nat, nextIter a lc o k = ⟨a, lc, o, (k : Int), stripePos a o k⟩ := by
  intro k
  induction k with
  | zero => rfl
  | succ k ih => rw [nextIter, ih, next_stripePos]

/-- `GoTo 0` resets the cursor to the origin, from any state of an index
with a nonnegative `start`. -/
theorem goTo_zero (s : SegmentedIndex) (h : 0 ≤ s.start) :
    goTo s 0 = ({ s with scaled := 0, unscaled := 0 }, ⟨0, 0⟩) := by
  have hloop : goToLoop s.offsets (Int.tmod 0 s.lcd) s.offsets.length 0 s.start
      (Int.tdiv 0 s.lcd * (s.offsets.length : Int)) (Int.tdiv 0 s.lcd * s.lcd + s.start + 1)
      = (0, s.start, Int.tdiv 0 s.lcd * (s.offsets.length : Int),
         Int.tdiv 0 s.lcd * s.lcd + s.start + 1) := by
    apply goToLoop_stop
    rw [Int.zero_tmod]
    omega
  rw [goTo_unfold s 0 0 s.start _ _ hloop]
  norm_num [Int.zero_tdiv]

/-! ## The claims -/

/-- Claim C3: Advance adds `start + 1` to `unscaled` when `scaled = 0`
and `offsets[(scaled - 1) mod len(offsets)]` otherwise, increments
`scaled`, and returns the updated pair; consequently successive Advance
calls from the initial state return `scaled = 1, 2, 3, ...` in order. -/
theorem claim3_advance_spec :
    (∀ s : SegmentedIndex, 0 ≤ s.scaled →
      next s = (⟨s.start, s.lcd, s.offsets, s.scaled + 1,
                 s.unscaled +
                   (if s.scaled = 0 then s.start + 1
                    else s.offsets.getD
                      ((s.scaled - 1) % (s.offsets.length : Int)).toNat 0)⟩,
                ⟨s.scaled + 1,
                 s.unscaled +
                   (if s.scaled = 0 then s.start + 1
                    else s.offsets.getD
                      ((s.scaled - 1) % (s.offsets.length : Int)).toNat 0)⟩)) ∧
    (∀ (a lc : Int) (o : List Int) (k : Nat),
      (next (nextIter a lc o k)).2.scaled = (k : Int) + 1) := by
  constructor
  · intro s hs
    by_cases h0 : s.scaled = 0
    · simp [next, h0]
    · have h1 : (1 : Int) ≤ s.scaled := by omega
      have hmod : (s.scaled - 1).tmod (s.offsets.length : Int)
          = (s.scaled - 1) % (s.offsets.length : Int) :=
        Int.tmod_eq_emod (by omega) (Int.natCast_nonneg _)
      simp [next, h0, hmod]
  · intro a lc o k
    rw [nextIter_eq, next_stripePos]
    push_cast
    ring

/-- Claim C3 witness: a concrete Advance step and a concrete returned
`scaled` value. -/
theorem claim3_advance_spec_witness :
    next ⟨0, 3, [2, 1], 2, 3⟩ = (⟨0, 3, [2, 1], 3, 4⟩, ⟨3, 4⟩) ∧
    (next (nextIter 0 3 [2, 1] 2)).2.scaled = 3 := by
  constructor
  · have h := claim3_advance_spec.1 ⟨0, 3, [2, 1], 2, 3⟩ (by decide)
    rw [h]
    decide
  · have h := claim3_advance_spec.2 0 3 [2, 1] 2
    rw [h]
    decide

/-- Claim C4: Retreat under its precondition `scaled ≥ 1` subtracts
`start + 1` from `unscaled` when `scaled = 1` and
`offsets[(scaled - 2) mod len(offsets)]` otherwise, decrements `scaled`,
and returns the updated pair. -/
theorem claim4_retreat_spec (s : SegmentedIndex) (hs : 1 ≤ s.scaled) :
    prev s = (⟨s.start, s.lcd, s.offsets, s.scaled - 1,
               s.unscaled -
                 (if s.scaled = 1 then s.start + 1
                  else s.offsets.getD
                    ((s.scaled - 2) % (s.offsets.length : Int)).toNat 0)⟩,
              ⟨s.scaled - 1,
               s.unscaled -
                 (if s.scaled = 1 then s.start + 1
                  else s.offsets.getD
                    ((s.scaled - 2) % (s.offsets.length : Int)).toNat 0)⟩) := by
  by_cases h1 : s.scaled = 1
  · simp [prev, h1]
  · have h2 : (2 : Int) ≤ s.scaled := by omega
    have hmod : (s.scaled - 2).tmod (s.offsets.length : Int)
        = (s.scaled - 2) % (s.offsets.length : Int) :=
      Int.tmod_eq_emod (by omega) (Int.natCast_nonneg _)
    simp [prev, h1, hmod]

/-- Claim C4 witness: a concrete Retreat step. -/
theorem claim4_retreat_spec_witness :
    prev ⟨0, 3, [2, 1], 2, 3⟩ = (⟨0, 3, [2, 1], 1, 1⟩, ⟨1, 1⟩) := by
  have h := claim4_retreat_spec ⟨0, 3, [2, 1], 2, 3⟩ (by decide)
  rw [h]
  decide

/-- Claim C5: in every reachable state, Advance followed by Retreat
restores the exact prior `(scaled, unscaled)` (indeed the whole state),
and when `scaled ≥ 1` Retreat followed by Advance does too. -/
theorem claim5_roundtrip (st lc : Int) (o : List Int) (s : SegmentedIndex)
    (_hr : Reachable st lc o s) :
    prev (next s).1 = (s, ⟨s.scaled, s.unscaled⟩) ∧
    (1 ≤ s.scaled → next (prev s).1 = (s, ⟨s.scaled, s.unscaled⟩)) :=
  ⟨prev_next s, fun _ => next_prev s⟩

/-- Claim C5 witness: the round trips at the reachable state after one
Advance from a fresh index. -/
theorem claim5_roundtrip_witness :
    prev (next (next (NewSegmentedIndex 0 3 [2, 1])).1).1
        = ((next (NewSegmentedIndex 0 3 [2, 1])).1, ⟨1, 1⟩) ∧
    next (prev (next (NewSegmentedIndex 0 3 [2, 1])).1).1
        = ((next (NewSegmentedIndex 0 3 [2, 1])).1, ⟨1, 1⟩) := by
  have h := claim5_roundtrip 0 3 [2, 1] (next (NewSegmentedIndex 0 3 [2, 1])).1
    (Reachable.next Reachable.init)
  exact ⟨h.1, h.2 (by decide)⟩

/-- Claim C6: the registry stores the instance returned by the first
lookup of a name, no later call (with any context or name) replaces or
removes it, and every later lookup of that name returns exactly the
stored instance while leaving the registry unchanged (hence at most one
instance is ever constructed per name). -/
theorem claim6_registry_single_instance (reg : SharedSegmentedIndexes)
    (state : ExecState) (name : String) (calls : List (ExecState × String))
    (state2 : ExecState) :
    (sharedGet reg state name).1.data name = some (sharedGet reg state name).2 ∧
    (runGets (sharedGet reg state name).1 calls).data name
      = some (sharedGet reg state name).2 ∧
    sharedGet (runGets (sharedGet reg state name).1 calls) state2 name
      = (runGets (sharedGet reg state name).1 calls, (sharedGet reg state name).2) := by
  have h1 := sharedGet_stores reg state name
  have h2 := runGets_preserves name (sharedGet reg state name).2 calls _ h1
  exact ⟨h1, h2, sharedGet_hit _ state2 name _ h2⟩

/-- Claim C7: the shared-index constructor rejects the empty name with an
invalid-argument failure before touching the registry, whatever the
execution context and registry contents. -/
theorem claim7_empty_name_rejected (reg : SharedSegmentedIndexes) (state : ExecState)
    (name : String) (h : name.length = 0) :
    xSharedSegmentedIndex reg state name
      = (reg, Except.error SharedIndexError.invalidArgument) := by
  rw [xSharedSegmentedIndex, if_pos h]

/-- Claim C7 witness: the empty name on a concrete registry and context. -/
theorem claim7_empty_name_rejected_witness :
    xSharedSegmentedIndex ⟨fun _ => none⟩ ⟨0, 3, [2, 1]⟩ ""
      = (⟨fun _ => none⟩, Except.error SharedIndexError.invalidArgument) :=
  claim7_empty_name_rejected ⟨fun _ => none⟩ ⟨0, 3, [2, 1]⟩ "" rfl

/-- Claim C8: Advance, Retreat and SeekTo leave `start`, `lcd` and
`offsets` exactly as fixed at construction; in particular every state
reachable by any sequence of the three operations still carries the
construction parameters. -/
theorem claim8_parameters_frozen :
    (∀ (s : SegmentedIndex) (value : Int),
      (next s).1.start = s.start ∧ (next s).1.lcd = s.lcd ∧
        (next s).1.offsets = s.offsets ∧
      (prev s).1.start = s.start ∧ (prev s).1.lcd = s.lcd ∧
        (prev s).1.offsets = s.offsets ∧
      (goTo s value).1.start = s.start ∧ (goTo s value).1.lcd = s.lcd ∧
        (goTo s value).1.offsets = s.offsets) ∧
    (∀ (st lc : Int) (o : List Int) (s : SegmentedIndex), Reachable st lc o s →
      s.start = st ∧ s.lcd = lc ∧ s.offsets = o) := by
  constructor
  · intro s value
    obtain ⟨f1, f2, f3⟩ := goTo_frame s value
    exact ⟨rfl, rfl, rfl, rfl, rfl, rfl, f1, f2, f3⟩
  · exact reachable_params

/-- Claim C8 witness: the frame facts at a concrete state, and the
parameters of a concrete reachable state. -/
theorem claim8_parameters_frozen_witness :
    (goTo ⟨0, 3, [2, 1], 1, 1⟩ 4).1.offsets = [2, 1] ∧
    (next (NewSegmentedIndex 0 3 [2, 1])).1.start = 0 := by
  constructor
  · exact (claim8_parameters_frozen.1 ⟨0, 3, [2, 1], 1, 1⟩ 4).2.2.2.2.2.2.2.2
  · exact (claim8_parameters_frozen.2 0 3 [2, 1] _ (Reachable.next Reachable.init)).1

/-- Claim C10: under the stated preconditions, SeekTo is free of runtime
faults: its forward walk stops within `len(offsets)` iterations (the
checked loop, which fails when the walk would run longer, returns a
`gi ≤ len(offsets)`), every offsets access is in bounds (the checked
variant, which fails on any out-of-range access, succeeds), and the
checked run returns exactly `goTo`'s result. -/
theorem claim10_seekTo_no_fault (a lc : Int) (o : List Int) (sc un value : Int)
    (h1 : 0 ≤ a) (h2 : 0 < lc) (h3 : ∀ x ∈ o, 0 < x) (h4 : o.sum = lc)
    (h5 : 0 ≤ value) :
    goToChecked ⟨a, lc, o, sc, un⟩ value = some (goTo ⟨a, lc, o, sc, un⟩ value) ∧
    ∃ gi : Nat, gi ≤ o.length ∧ ∃ i s1 u1,
      goToLoopChecked o (value.tmod lc) o.length 0 a
        (value.tdiv lc * (o.length : Int)) (value.tdiv lc * lc + a + 1)
        = some (gi, i, s1, u1) :=
  goToChecked_eq a lc o h1 h2 h3 h4 sc un value h5

/-- Claim C10 witness: the fault-free checked SeekTo on the concrete
example. -/
theorem claim10_seekTo_no_fault_witness :
    goToChecked ⟨0, 3, [2, 1], 0, 0⟩ 4 = some (goTo ⟨0, 3, [2, 1], 0, 0⟩ 4) ∧
    goTo ⟨0, 3, [2, 1], 0, 0⟩ 4 = (⟨0, 3, [2, 1], 3, 4⟩, ⟨3, 4⟩) := by
  refine ⟨(claim10_seekTo_no_fault 0 3 [2, 1] 0 0 4 (by decide) (by decide)
    (by decide) (by decide) (by decide)).1, by decide⟩

/-- Claim C1 counterexample: with parameters satisfying only the claimed
validity conditions (`start ≥ 0`, `cycleLength > 0`, `offsets` non-empty
— here `start = 0`, `cycleLength = 3`, `offsets = [5]`) and target
`value = 4 ≥ 0`, SeekTo returns `(2, 4)` while the naive Advance scan
stops at `(1, 1)`; the returned pair is not the largest on-stripe cursor
`≤ 4` either, since the position of the 2nd element is 6. -/
theorem claim1_counterexample :
    (0 : Int) ≤ 0 ∧ (0 : Int) < 3 ∧ ([(5 : Int)] ≠ []) ∧ (0 : Int) ≤ 4 ∧
    goTo ⟨0, 3, [5], 0, 0⟩ 4
      ≠ (naiveSeekTo 0 3 [5] 4,
         ⟨(naiveSeekTo 0 3 [5] 4).scaled, (naiveSeekTo 0 3 [5] 4).unscaled⟩) ∧
    (goTo ⟨0, 3, [5], 0, 0⟩ 4).2 = ⟨2, 4⟩ ∧
    naiveSeekTo 0 3 [5] 4 = ⟨0, 3, [5], 1, 1⟩ ∧
    stripePos 0 [5] 2 = 6 := by
  decide

/-- Claim C1 (amended with the full striping contract, which additionally
requires the offsets to be positive and to sum to `cycleLength`, and the
partition's in-cycle positions to lie inside one cycle): SeekTo equals
the naive Advance-based linear scan from the initial state, and lands on
the largest `scaled` whose on-stripe `unscaled` does not exceed the
target, together with that `unscaled`. -/
theorem claim1_seekTo_eq_naive (a lc : Int) (o : List Int) (sc un value : Int)
    (h : ValidStriping a lc o) (hv : 0 ≤ value) :
    goTo ⟨a, lc, o, sc, un⟩ value
      = (naiveSeekTo a lc o value,
         ⟨(naiveSeekTo a lc o value).scaled, (naiveSeekTo a lc o value).unscaled⟩) ∧
    0 ≤ (goTo ⟨a, lc, o, sc, un⟩ value).2.scaled ∧
    (goTo ⟨a, lc, o, sc, un⟩ value).2.unscaled
      = stripePos a o (goTo ⟨a, lc, o, sc, un⟩ value).2.scaled.toNat ∧
    (goTo ⟨a, lc, o, sc, un⟩ value).2.unscaled ≤ value ∧
    ∀ k : Nat, stripePos a o k ≤ value →
      (k : Int) ≤ (goTo ⟨a, lc, o, sc, un⟩ value).2.scaled := by
  obtain ⟨K, hK, hK1, hK2⟩ := goTo_result a lc o h sc un value hv
  obtain ⟨ha, hlcd, hne, hpos, hsum, hcycle⟩ := h
  have hnaive := naiveSeekTo_eq a lc o ha hne hpos value hv K hK1 hK2
  rw [hK, hnaive]
  refine ⟨rfl, Int.natCast_nonneg K, ?_, hK1, ?_⟩
  · rw [Int.toNat_natCast]
  · intro k hk
    simp only
    by_contra hcon
    have hkK : K + 1 ≤ k := by
      push_cast at hcon
      omega
    have := (stripePos_strictMono a o ha hne hpos).monotone hkK
    omega

/-- Claim C1 witness: on the spec's concrete example
(`start = 0`, `cycleLength = 3`, `offsets = [2,1]`), SeekTo(4) equals
the naive scan and lands on `(3, 4)`. -/
theorem claim1_seekTo_eq_naive_witness :
    goTo ⟨0, 3, [2, 1], 0, 0⟩ 4
      = (naiveSeekTo 0 3 [2, 1] 4,
         ⟨(naiveSeekTo 0 3 [2, 1] 4).scaled, (naiveSeekTo 0 3 [2, 1] 4).unscaled⟩) ∧
    goTo ⟨0, 3, [2, 1], 0, 0⟩ 4 = (⟨0, 3, [2, 1], 3, 4⟩, ⟨3, 4⟩) := by
  refine ⟨(claim1_seekTo_eq_naive 0 3 [2, 1] 0 0 4 (by decide) (by decide)).1, ?_⟩
  decide

/-- Claim C2: in every state reachable by Advance, Retreat (under its
precondition) and SeekTo (with a nonnegative target) on a validly
striped index, `scaled` is nonnegative, `unscaled = 0` when
`scaled = 0`, and `unscaled = start + 1 + Σ_{j=0}^{scaled-2}
offsets[j mod len(offsets)]` when `scaled ≥ 1`: the cursor pair is never
updated inconsistently. -/
theorem claim2_cursor_invariant (st lc : Int) (o : List Int) (s : SegmentedIndex)
    (h : ValidStriping st lc o) (hr : Reachable st lc o s) :
    0 ≤ s.scaled ∧
    (s.scaled = 0 → s.unscaled = 0) ∧
    (1 ≤ s.scaled → s.unscaled = st + 1 + sumMod o (s.scaled.toNat - 1)) := by
  obtain ⟨h1, h2⟩ := reachable_inv st lc o h s hr
  refine ⟨h1, ?_, ?_⟩
  · intro h0
    have hz : s.scaled.toNat = 0 := by omega
    rw [h2, hz]
    rfl
  · intro hge
    obtain ⟨k, hk⟩ : ∃ k, s.scaled.toNat = k + 1 :=
      Nat.exists_eq_succ_of_ne_zero (by omega)
    rw [h2, hk, stripePos_eq]
    have : (k + 1) - 1 = k := rfl
    rw [this]

/-- Claim C2 witness: the invariant at the reachable state after one
Advance from a fresh index. -/
theorem claim2_cursor_invariant_witness :
    0 ≤ (next (NewSegmentedIndex 0 3 [2, 1])).1.scaled ∧
    ((next (NewSegmentedIndex 0 3 [2, 1])).1.scaled = 0 →
      (next (NewSegmentedIndex 0 3 [2, 1])).1.unscaled = 0) ∧
    (1 ≤ (next (NewSegmentedIndex 0 3 [2, 1])).1.scaled →
      (next (NewSegmentedIndex 0 3 [2, 1])).1.unscaled
        = 0 + 1 + sumMod [2, 1] ((next (NewSegmentedIndex 0 3 [2, 1])).1.scaled.toNat - 1)) :=
  claim2_cursor_invariant 0 3 [2, 1] _ (by decide) (Reachable.next Reachable.init)

/-- Claim C9: the result and final state of SeekTo depend only on the
construction parameters and the target, not on the cursor at call time;
SeekTo is idempotent; and SeekTo(0) resets the cursor to `(0, 0)` from
any state (given the data model's `start ≥ 0`). -/
theorem claim9_seekTo_state_independent (s : SegmentedIndex) (value x y : Int)
    (h : 0 ≤ s.start) :
    goTo ⟨s.start, s.lcd, s.offsets, x, y⟩ value = goTo s value ∧
    goTo (goTo s value).1 value = goTo s value ∧
    goTo s 0 = (⟨s.start, s.lcd, s.offsets, 0, 0⟩, ⟨0, 0⟩) := by
  obtain ⟨f1, f2, f3⟩ := goTo_frame s value
  refine ⟨goTo_congr _ s value rfl rfl rfl, goTo_congr _ s value f1 f2 f3, ?_⟩
  rw [goTo_zero s h]

/-- Claim C9 witness: two different cursors of the same instance give the
same SeekTo result, and SeekTo(0) resets a non-initial state. -/
theorem claim9_seekTo_state_independent_witness :
    goTo ⟨0, 3, [2, 1], 9, 9⟩ 4 = goTo ⟨0, 3, [2, 1], 1, 1⟩ 4 ∧
    goTo ⟨0, 3, [2, 1], 1, 1⟩ 0 = (⟨0, 3, [2, 1], 0, 0⟩, ⟨0, 0⟩) := by
  have h := claim9_seekTo_state_independent ⟨0, 3, [2, 1], 1, 1⟩ 4 9 9 (by decide)
  exact ⟨h.1, h.2.2⟩

end Segment
